import Mathlib

/-!
# Taint analysis pass (`TaintAnalysis.cpp`): shallow embedding and verified properties

The pass walks every function of a module once, in layout order.  It keeps a
per-function `std::map<StringRef, bool>` (the taint map) and appends to the
global vector `taintFn` whenever a sink function is called with a tainted
argument.

Modelling conventions.

* A `StringRef` name is a `String`; the empty string is the name of an unnamed
  value (a constant, an anonymous temporary).
* `std::map<StringRef, bool>` is an association list kept in ascending key
  order by `TaintMap.insert`; `TaintMap.find` is `std::map::find`
  (`none` = `end()`).
* Dereferencing `end()` or a null `Function*` is undefined behaviour; the
  model makes such a step return `none`.
* `g_debug` is the constant `0` of the source, so the debug-only branches are
  not taken and are left out.
-/

namespace TaintAnalysis

/-- An entry of the global vector `taintFn` (struct `taintInfo`). -/
structure taintInfo where
  line : Nat
  fnName : String
deriving DecidableEq, Repr

/-- The global `sinkFn`. -/
def sinkFn : List String := ["memcpy", "strcpy", "strcat"]

/-- The global `sanitizeFn`. -/
def sanitizeFn : List String := ["strlen"]

/-- The per-function `std::map<StringRef, bool>`. -/
abbrev TaintMap := List (String × Bool)

namespace TaintMap

/-- `std::map::find`: the flag stored under `key`, `none` for `end()`. -/
def find : TaintMap → String → Option Bool
  | [], _ => none
  | (k, v) :: rest, key => if key = k then some v else find rest key

/-- Lexicographic comparison of two character sequences: the first differing
character decides, a proper prefix is smaller. -/
def ltChars : List Char → List Char → Bool
  | [], [] => false
  | [], _ :: _ => true
  | _ :: _, [] => false
  | a :: as, b :: bs =>
    if a.toNat < b.toNat then true
    else if b.toNat < a.toNat then false
    else ltChars as bs

/-- `StringRef::operator<`, the key order of the map. -/
def nameLt (a b : String) : Bool := ltChars a.data b.data

/-- Places a new entry at its position in ascending key order. -/
def orderedInsert : TaintMap → String → Bool → TaintMap
  | [], key, v => [(key, v)]
  | (k, b) :: rest, key, v =>
    if nameLt key k = true then (key, v) :: (k, b) :: rest else (k, b) :: orderedInsert rest key v

/-- `std::map::insert`: adds the pair only when the key has no entry yet; an
existing entry is left as it is. -/
def insert (m : TaintMap) (key : String) (v : Bool) : TaintMap :=
  match find m key with
  | some _ => m
  | none => orderedInsert m key v

/-- Assignment through an iterator, `m.find(key)->second = v`, for a key that
is present; other entries are untouched. -/
def assign : TaintMap → String → Bool → TaintMap
  | [], _, _ => []
  | (k, b) :: rest, key, v =>
    if key = k then (k, v) :: rest else (k, b) :: assign rest key v

/-- The keys of the map, in iteration order. -/
def keys (m : TaintMap) : List String := m.map Prod.fst

end TaintMap

/-- The instructions the pass distinguishes, with the data it reads from each:
operand names for `store` and `load`, the called function (absent for an
indirect call), the argument names and the debug line for `call`. -/
inductive Instruction where
  | Store (op0 op1 : String)
  | Load (op0 name : String)
  | Call (calledFunction : Option String) (args : List String) (line : Nat)
  | Other
deriving DecidableEq, Repr

/-- A function: its parameter names and its basic blocks in layout order. -/
structure Function where
  args : List String
  blocks : List (List Instruction)
deriving DecidableEq, Repr

/-- `isTaintedArg`: some argument has an entry, the entry is `true`, and the
argument's name is not empty. -/
def isTaintedArg : List String → TaintMap → Bool
  | [], _ => false
  | var :: rest, taintMap =>
    match TaintMap.find taintMap var with
    | some true => if var ≠ "" then true else isTaintedArg rest taintMap
    | _ => isTaintedArg rest taintMap

/-- `sanitizeArg`: clears the flag of every named argument that has an entry.
The map parameter is taken by value, so the cleared map is the callee's local
copy; the value returned here is that local copy at the end of the loop. -/
def sanitizeArg : List String → TaintMap → TaintMap
  | [], taintMap => taintMap
  | var :: rest, taintMap =>
    if (TaintMap.find taintMap var).isSome ∧ var ≠ "" then
      sanitizeArg rest (TaintMap.assign taintMap var false)
    else sanitizeArg rest taintMap

/-- `taintStore` with `op1 = getOperand(0)->getName()` and
`op2 = getOperand(1)->getName()`.  `taintMap.find(op1)->second` is read without
a check against `end()`. -/
def taintStore (op1 op2 : String) (taintMap : TaintMap) : Option TaintMap :=
  match TaintMap.find taintMap op1 with
  | none => none
  | some flag =>
    if flag = true ∧ op2 ≠ "" then some (TaintMap.insert taintMap op2 true)
    else if op2 ≠ "" then some (TaintMap.insert taintMap op2 false)
    else some taintMap

/-- `taintLoad` with `op1 = getOperand(0)->getName()` and `op2 = I.getName()`. -/
def taintLoad (op1 op2 : String) (taintMap : TaintMap) : Option TaintMap :=
  match TaintMap.find taintMap op1 with
  | none => none
  | some flag =>
    if flag = true ∧ op2 ≠ "" then some (TaintMap.insert taintMap op2 true)
    else if op2 ≠ "" then some (TaintMap.insert taintMap op2 false)
    else some taintMap

/-- `taintCall`: `fn->getName()` is read without a null check; a sink call
with a tainted argument appends to `taintFn`; a sanitizer call runs
`sanitizeArg` on a copy of the map. -/
def taintCall (calledFunction : Option String) (args : List String) (line : Nat)
    (taintMap : TaintMap) (taintFn : List taintInfo) : Option (TaintMap × List taintInfo) :=
  match calledFunction with
  | none => none
  | some fnName =>
    if fnName ∈ sinkFn then
      if isTaintedArg args taintMap = true then
        some (taintMap, taintFn ++ [taintInfo.mk line fnName])
      else some (taintMap, taintFn)
    else if fnName ∈ sanitizeFn then
      let _copy := sanitizeArg args taintMap
      some (taintMap, taintFn)
    else some (taintMap, taintFn)

/-- The seeding loop of `visitor`: every named parameter is inserted as
tainted. -/
def seedArgs : List String → TaintMap → TaintMap
  | [], taintMap => taintMap
  | varName :: rest, taintMap =>
    if varName ≠ "" then seedArgs rest (TaintMap.insert taintMap varName true)
    else seedArgs rest taintMap

/-- The opcode dispatch in the body of `visitor`'s inner loop. -/
def visitInstruction (I : Instruction) (taintMap : TaintMap) (taintFn : List taintInfo) :
    Option (TaintMap × List taintInfo) :=
  match I with
  | .Store op0 op1 => (taintStore op0 op1 taintMap).map (fun m => (m, taintFn))
  | .Load op0 name => (taintLoad op0 name taintMap).map (fun m => (m, taintFn))
  | .Call fn args line => taintCall fn args line taintMap taintFn
  | .Other => some (taintMap, taintFn)

/-- The inner loop of `visitor`: the instructions of one basic block. -/
def visitBlock : List Instruction → TaintMap → List taintInfo →
    Option (TaintMap × List taintInfo)
  | [], taintMap, taintFn => some (taintMap, taintFn)
  | I :: rest, taintMap, taintFn =>
    match visitInstruction I taintMap taintFn with
    | none => none
    | some (taintMap1, taintFn1) => visitBlock rest taintMap1 taintFn1

/-- The outer loop of `visitor`: the basic blocks in layout order. -/
def visitBlocks : List (List Instruction) → TaintMap → List taintInfo →
    Option (TaintMap × List taintInfo)
  | [], taintMap, taintFn => some (taintMap, taintFn)
  | B :: rest, taintMap, taintFn =>
    match visitBlock B taintMap taintFn with
    | none => none
    | some (taintMap1, taintFn1) => visitBlocks rest taintMap1 taintFn1

/-- `visitor`: a fresh map, seeded from the parameters, then one pass over the
body.  Returns the final map (the one handed to `printMap`) and the global
`taintFn`. -/
def visitor (F : Function) (taintFn : List taintInfo) : Option (TaintMap × List taintInfo) :=
  visitBlocks F.blocks (seedArgs F.args []) taintFn

/-- The loop of `runOnModule` over the functions of the module, threading the
global `taintFn`. -/
def runOnModule : List Function → List taintInfo → Option (List taintInfo)
  | [], taintFn => some taintFn
  | F :: rest, taintFn =>
    match visitor F taintFn with
    | none => none
    | some (_, taintFn1) => runOnModule rest taintFn1

/-! ## Inputs named by the properties -/

/-- One copy instruction from `src` to `dst`: a store (`src` is operand 0,
`dst` operand 1) or a load (`src` is operand 0, `dst` the instruction's name). -/
def copyStep (isStore : Bool) (src dst : String) : Instruction :=
  if isStore then .Store src dst else .Load src dst

/-- The instructions of a copy chain `src -> v1 -> ... -> vn`; each step says
whether it is a store and names its destination. -/
def copyChain : String → List (Bool × String) → List Instruction
  | _, [] => []
  | src, (isStore, dst) :: rest => copyStep isStore src dst :: copyChain dst rest

/-- The last name of a copy chain that starts at `src`. -/
def chainEnd : String → List (Bool × String) → String
  | src, [] => src
  | _, (_, dst) :: rest => chainEnd dst rest

/-- Calls of `f` on the single argument `x`, one per given line. -/
def callsOn (f x : String) (lines : List Nat) : List Instruction :=
  lines.map (fun l => Instruction.Call (some f) [x] l)

/-- Every flag stored in the map is `true`. -/
def AllTrue (m : TaintMap) : Prop := ∀ e ∈ m, e.2 = true

/-! ## Text written to `errs()` -/

/-- `printMap`: one line `<name> <flag>` per entry, in the iteration order of
the map; a `bool` is written as `0` or `1`. -/
def printMap (taintMap : TaintMap) : List String :=
  taintMap.map (fun e => e.1 ++ " " ++ (if e.2 = true then "1" else "0"))

/-- The line `printAnalysis` writes for one entry of `taintFn`; the `unsigned`
line is written in decimal. -/
def findingLine (t : taintInfo) : String :=
  t.fnName ++ " at line " ++ Nat.repr t.line

/-- `printAnalysis`: the header line, then one line per entry of `taintFn`. -/
def printAnalysis (taintFn : List taintInfo) : List String :=
  "WARNING: Tainted arguments passed to these functions:" :: taintFn.map findingLine

/-- The lines `runOnModule` writes to `errs()` with `g_debug` off, together
with the final `taintFn`: `visitor` ends with an unguarded `printMap(taintMap)`
for every function, and `printAnalysis()` runs after the last function. -/
def runOnModuleErrs : List Function → List taintInfo → Option (List String × List taintInfo)
  | [], taintFn => some (printAnalysis taintFn, taintFn)
  | F :: rest, taintFn =>
    match visitor F taintFn with
    | none => none
    | some (taintMap, taintFn1) =>
      match runOnModuleErrs rest taintFn1 with
      | none => none
      | some (out, taintFn2) => some (printMap taintMap ++ out, taintFn2)

/-- The keys of the map are in strictly ascending order, as a `std::map`
iterates them. -/
def Ascending (m : TaintMap) : Prop :=
  List.Pairwise (fun a b => TaintMap.nameLt a.1 b.1 = true) m

/-! ## Sink calls of a module -/

/-- The finding a call instruction can give rise to: `(callee, line)` for a
call whose resolved callee is in `sinkFn`, nothing for any other instruction. -/
def sinkFinding : Instruction → Option taintInfo
  | .Call (some f) _ line => if f ∈ sinkFn then some (taintInfo.mk line f) else none
  | _ => none

/-- All instructions of a module, in traversal order. -/
def moduleInstrs (M : List Function) : List Instruction :=
  (M.map (fun F => F.blocks.flatten)).flatten

/-- The number of call instructions of the module whose resolved callee is a
sink function. -/
def countSinkCalls (M : List Function) : Nat :=
  (moduleInstrs M).countP (fun I => (sinkFinding I).isSome)

/-! ## The map operations -/

namespace TaintMap

theorem find_orderedInsert_self (m : TaintMap) (key : String) (v : Bool)
    (h : find m key = none) : find (orderedInsert m key v) key = some v := by
  induction m with
  | nil => simp [orderedInsert, find]
  | cons e rest ih =>
    obtain ⟨k, b⟩ := e
    by_cases hk : key = k
    · simp [find, hk] at h
    · have hrest : find rest key = none := by simpa [find, hk] using h
      by_cases hlt : nameLt key k = true
      · simp [orderedInsert, hlt, find]
      · simp [orderedInsert, hlt, find, hk, ih hrest]

theorem find_orderedInsert_ne (m : TaintMap) (key other : String) (v : Bool)
    (h : other ≠ key) : find (orderedInsert m key v) other = find m other := by
  induction m with
  | nil => simp [orderedInsert, find, h]
  | cons e rest ih =>
    obtain ⟨k, b⟩ := e
    by_cases hlt : nameLt key k = true
    · simp [orderedInsert, hlt, find, h]
    · simp [orderedInsert, hlt, find, ih]

theorem insert_of_find_some (m : TaintMap) (key : String) (v b : Bool)
    (h : find m key = some b) : insert m key v = m := by
  simp [insert, h]

theorem insert_of_find_none (m : TaintMap) (key : String) (v : Bool)
    (h : find m key = none) : insert m key v = orderedInsert m key v := by
  simp [insert, h]

theorem find_insert_self_of_none (m : TaintMap) (key : String) (v : Bool)
    (h : find m key = none) : find (insert m key v) key = some v := by
  rw [insert_of_find_none m key v h]
  exact find_orderedInsert_self m key v h

theorem find_insert_ne (m : TaintMap) (key other : String) (v : Bool)
    (h : other ≠ key) : find (insert m key v) other = find m other := by
  cases hf : find m key with
  | none => rw [insert_of_find_none m key v hf]; exact find_orderedInsert_ne m key other v h
  | some b => rw [insert_of_find_some m key v b hf]

theorem mem_orderedInsert (m : TaintMap) (key : String) (v : Bool) (e : String × Bool) :
    e ∈ orderedInsert m key v ↔ e = (key, v) ∨ e ∈ m := by
  induction m with
  | nil => simp [orderedInsert]
  | cons hd rest ih =>
    obtain ⟨k, b⟩ := hd
    by_cases hlt : nameLt key k = true
    · simp [orderedInsert, hlt]
    · have hlt2 : nameLt key k = false := by simpa using hlt
      simp only [orderedInsert, hlt2, Bool.false_eq_true, if_false, List.mem_cons, ih]
      tauto

theorem find_eq_none_iff (m : TaintMap) (key : String) :
    find m key = none ↔ key ∉ keys m := by
  induction m with
  | nil => simp [find, keys]
  | cons hd rest ih =>
    obtain ⟨k, b⟩ := hd
    by_cases hk : key = k
    · simp [find, keys, hk]
    · simp only [find, hk, if_false, ih]
      simp [keys, hk]

theorem find_mem (m : TaintMap) (key : String) (b : Bool) (h : find m key = some b) :
    (key, b) ∈ m := by
  induction m with
  | nil => simp [find] at h
  | cons hd rest ih =>
    obtain ⟨k, b0⟩ := hd
    by_cases hk : key = k
    · simp [find, hk] at h
      simp [hk, h]
    · simp only [find, hk, if_false] at h
      exact List.mem_cons_of_mem _ (ih h)

end TaintMap

/-! ## Steps of the pass -/

theorem taintLoad_eq_taintStore (op1 op2 : String) (m : TaintMap) :
    taintLoad op1 op2 m = taintStore op1 op2 m := rfl

theorem taintStore_of_find (m : TaintMap) (s d : String) (b : Bool)
    (hs : TaintMap.find m s = some b) (hd : d ≠ "") :
    taintStore s d m = some (TaintMap.insert m d b) := by
  cases b <;> simp [taintStore, hs, hd]

theorem taintStore_of_absent (m : TaintMap) (s d : String)
    (hs : TaintMap.find m s = none) : taintStore s d m = none := by
  simp [taintStore, hs]

theorem isTaintedArg_eq_true_iff (args : List String) (m : TaintMap) :
    isTaintedArg args m = true ↔ ∃ a ∈ args, TaintMap.find m a = some true ∧ a ≠ "" := by
  induction args with
  | nil => simp [isTaintedArg]
  | cons var rest ih =>
    unfold isTaintedArg
    split
    · rename_i hfind
      by_cases hv : var = ""
      · simp only [hv, ne_eq, not_true_eq_false, if_false, ih, List.mem_cons]
        constructor
        · rintro ⟨a, ha, h⟩
          exact ⟨a, Or.inr ha, h⟩
        · rintro ⟨a, ha | ha, h1, h2⟩
          · exact absurd ha h2
          · exact ⟨a, ha, h1, h2⟩
      · simp only [ne_eq, hv, not_false_eq_true, if_true, true_iff]
        exact ⟨var, List.mem_cons_self _ _, hfind, hv⟩
    · rename_i hfind
      rw [ih]
      constructor
      · rintro ⟨a, ha, h⟩
        exact ⟨a, List.mem_cons_of_mem _ ha, h⟩
      · rintro ⟨a, ha, h1, h2⟩
        rcases List.mem_cons.mp ha with ha | ha
        · subst ha
          exact absurd h1 (hfind)
        · exact ⟨a, ha, h1, h2⟩

theorem taintCall_sanitizer (f : String) (args : List String) (line : Nat) (m : TaintMap)
    (fs : List taintInfo) (hsink : f ∉ sinkFn) :
    taintCall (some f) args line m fs = some (m, fs) := by
  simp only [taintCall, hsink, if_false]
  split <;> rfl

/-! ## Seeding and traversal -/

theorem allTrue_nil : AllTrue [] := by
  intro e he
  simp at he

theorem allTrue_insert_true (m : TaintMap) (key : String) (h : AllTrue m) :
    AllTrue (TaintMap.insert m key true) := by
  cases hf : TaintMap.find m key with
  | some b => rw [TaintMap.insert_of_find_some m key true b hf]; exact h
  | none =>
    rw [TaintMap.insert_of_find_none m key true hf]
    intro e he
    rcases (TaintMap.mem_orderedInsert m key true e).mp he with he | he
    · rw [he]
    · exact h e he

theorem find_insert_true_of_allTrue (m : TaintMap) (key : String) (h : AllTrue m) :
    TaintMap.find (TaintMap.insert m key true) key = some true := by
  cases hf : TaintMap.find m key with
  | some b =>
    rw [TaintMap.insert_of_find_some m key true b hf, hf]
    have := h (key, b) (TaintMap.find_mem m key b hf)
    simpa using this
  | none => exact TaintMap.find_insert_self_of_none m key true hf

theorem allTrue_seedArgs (params : List String) (m : TaintMap) (h : AllTrue m) :
    AllTrue (seedArgs params m) := by
  induction params generalizing m with
  | nil => simpa [seedArgs] using h
  | cons p rest ih =>
    by_cases hp : p = ""
    · simpa [seedArgs, hp] using ih m h
    · simpa [seedArgs, hp] using ih _ (allTrue_insert_true m p h)

theorem find_seedArgs_of_some (params : List String) (m : TaintMap) (k : String) (b : Bool)
    (h : TaintMap.find m k = some b) : TaintMap.find (seedArgs params m) k = some b := by
  induction params generalizing m with
  | nil => simpa [seedArgs] using h
  | cons p rest ih =>
    by_cases hp : p = ""
    · simpa [seedArgs, hp] using ih m h
    · simp only [seedArgs, ne_eq, hp, not_false_eq_true, if_true]
      apply ih
      by_cases hk : k = p
      · subst hk
        rw [TaintMap.insert_of_find_some m k true b h]
        exact h
      · rw [TaintMap.find_insert_ne m p k true hk]
        exact h

theorem find_seedArgs_of_none (params : List String) (m : TaintMap) (k : String)
    (h : TaintMap.find m k = none) :
    TaintMap.find (seedArgs params m) k = if k ∈ params ∧ k ≠ "" then some true else none := by
  induction params generalizing m with
  | nil => simpa [seedArgs] using h
  | cons p rest ih =>
    by_cases hp : p = ""
    · simp only [seedArgs, hp, ne_eq, not_true_eq_false, if_false]
      rw [ih m h]
      by_cases hk : k = ""
      · simp [hk]
      · simp [hk]
    · simp only [seedArgs, ne_eq, hp, not_false_eq_true, if_true]
      by_cases hk : k = p
      · subst hk
        rw [find_seedArgs_of_some rest _ k true (TaintMap.find_insert_self_of_none m k true h)]
        simp [hp]
      · have h1 : TaintMap.find (TaintMap.insert m p true) k = none := by
          rw [TaintMap.find_insert_ne m p k true hk]
          exact h
        rw [ih _ h1]
        simp [hk]

theorem visitBlock_append (a b : List Instruction) (m : TaintMap) (fs : List taintInfo) :
    visitBlock (a ++ b) m fs = (visitBlock a m fs).bind (fun p => visitBlock b p.1 p.2) := by
  induction a generalizing m fs with
  | nil => simp [visitBlock]
  | cons I rest ih =>
    simp only [List.cons_append, visitBlock]
    cases hI : visitInstruction I m fs with
    | none => simp
    | some p => obtain ⟨m1, fs1⟩ := p; simp [ih]

theorem visitBlock_singleton (I : Instruction) (m : TaintMap) (fs : List taintInfo) :
    visitBlock [I] m fs = visitInstruction I m fs := by
  simp only [visitBlock]
  cases visitInstruction I m fs with
  | none => rfl
  | some p => rfl

theorem visitBlocks_eq_join (bs : List (List Instruction)) (m : TaintMap)
    (fs : List taintInfo) : visitBlocks bs m fs = visitBlock bs.flatten m fs := by
  induction bs generalizing m fs with
  | nil => simp [visitBlocks, visitBlock]
  | cons B rest ih =>
    simp only [visitBlocks, List.flatten_cons, visitBlock_append]
    cases hB : visitBlock B m fs with
    | none => simp
    | some p => obtain ⟨m1, fs1⟩ := p; simp [ih]

theorem visitInstruction_copyStep (isStore : Bool) (src dst : String) (m : TaintMap)
    (fs : List taintInfo) :
    visitInstruction (copyStep isStore src dst) m fs
      = (taintStore src dst m).map (fun m1 => (m1, fs)) := by
  cases isStore <;> simp [copyStep, visitInstruction, taintLoad_eq_taintStore]

theorem chainEnd_ne_empty (src : String) (steps : List (Bool × String)) (hsrc : src ≠ "")
    (hne : ∀ s ∈ steps, s.2 ≠ "") : chainEnd src steps ≠ "" := by
  induction steps generalizing src with
  | nil => simpa [chainEnd] using hsrc
  | cons st rest ih =>
    obtain ⟨isStore, dst⟩ := st
    simp only [chainEnd]
    exact ih dst (hne (isStore, dst) (List.mem_cons_self _ _))
      (fun s hs => hne s (List.mem_cons_of_mem _ hs))

theorem visitBlock_copyChain (src : String) (steps : List (Bool × String)) (m : TaintMap)
    (fs : List taintInfo) (hall : AllTrue m) (hsrc : TaintMap.find m src = some true)
    (hne : ∀ s ∈ steps, s.2 ≠ "") :
    ∃ m1, visitBlock (copyChain src steps) m fs = some (m1, fs) ∧ AllTrue m1 ∧
      TaintMap.find m1 (chainEnd src steps) = some true := by
  induction steps generalizing src m with
  | nil => exact ⟨m, by simp [copyChain, visitBlock], hall, by simpa [chainEnd] using hsrc⟩
  | cons st rest ih =>
    obtain ⟨isStore, dst⟩ := st
    have hdst : dst ≠ "" := hne (isStore, dst) (List.mem_cons_self _ _)
    obtain ⟨m1, hrun, hall1, hend⟩ := ih dst (TaintMap.insert m dst true)
      (allTrue_insert_true m dst hall) (find_insert_true_of_allTrue m dst hall)
      (fun s hs => hne s (List.mem_cons_of_mem _ hs))
    refine ⟨m1, ?_, hall1, by simpa [chainEnd] using hend⟩
    simp only [copyChain, visitBlock, visitInstruction_copyStep,
      taintStore_of_find m src dst true hsrc hdst, Option.map_some']
    exact hrun

theorem sink_call_step (m : TaintMap) (fs : List taintInfo) (f : String) (args : List String)
    (line : Nat) (hf : f ∈ sinkFn) :
    ((∃ a ∈ args, TaintMap.find m a = some true ∧ a ≠ "") →
        taintCall (some f) args line m fs = some (m, fs ++ [taintInfo.mk line f])) ∧
    ((¬ ∃ a ∈ args, TaintMap.find m a = some true ∧ a ≠ "") →
        taintCall (some f) args line m fs = some (m, fs)) := by
  constructor
  · intro h
    have ht : isTaintedArg args m = true := (isTaintedArg_eq_true_iff args m).mpr h
    simp [taintCall, hf, ht]
  · intro h
    have ht : ¬ isTaintedArg args m = true := fun hc => h ((isTaintedArg_eq_true_iff args m).mp hc)
    simp [taintCall, hf, ht]

/-! ## The findings list is threaded, never read -/

theorem taintCall_findings (fn : Option String) (args : List String) (line : Nat)
    (m : TaintMap) (fs : List taintInfo) :
    taintCall fn args line m fs
      = (taintCall fn args line m []).map (fun p => (p.1, fs ++ p.2)) := by
  cases fn with
  | none => rfl
  | some f =>
    simp only [taintCall]
    split
    · split <;> simp
    · split <;> simp

theorem visitInstruction_findings (I : Instruction) (m : TaintMap) (fs : List taintInfo) :
    visitInstruction I m fs
      = (visitInstruction I m []).map (fun p => (p.1, fs ++ p.2)) := by
  cases I with
  | Store op0 op1 => cases h : taintStore op0 op1 m <;> simp [visitInstruction, h]
  | Load op0 name => cases h : taintLoad op0 name m <;> simp [visitInstruction, h]
  | Call fn args line => exact taintCall_findings fn args line m fs
  | Other => simp [visitInstruction]

theorem visitBlock_findings (B : List Instruction) (m : TaintMap) (fs : List taintInfo) :
    visitBlock B m fs = (visitBlock B m []).map (fun p => (p.1, fs ++ p.2)) := by
  induction B generalizing m fs with
  | nil => simp [visitBlock]
  | cons I rest ih =>
    simp only [visitBlock]
    rw [visitInstruction_findings I m fs]
    cases hI : visitInstruction I m [] with
    | none => simp
    | some p =>
      obtain ⟨m1, out1⟩ := p
      simp only [Option.map_some']
      rw [ih m1 (fs ++ out1), ih m1 out1]
      cases visitBlock rest m1 [] with
      | none => simp
      | some q => simp [List.append_assoc]

theorem visitor_findings (F : Function) (fs : List taintInfo) :
    visitor F fs = (visitor F []).map (fun p => (p.1, fs ++ p.2)) := by
  simp only [visitor, visitBlocks_eq_join]
  exact visitBlock_findings _ _ fs

theorem runOnModule_findings (M : List Function) (fs : List taintInfo) :
    runOnModule M fs = (runOnModule M []).map (fun out => fs ++ out) := by
  induction M generalizing fs with
  | nil => simp [runOnModule]
  | cons F rest ih =>
    simp only [runOnModule]
    rw [visitor_findings F fs]
    cases hF : visitor F [] with
    | none => simp
    | some p =>
      obtain ⟨m1, out1⟩ := p
      simp only [Option.map_some']
      rw [ih (fs ++ out1), ih out1]
      cases runOnModule rest [] with
      | none => simp
      | some q => simp [List.append_assoc]

theorem runOnModule_append (A B : List Function) (fs : List taintInfo) :
    runOnModule (A ++ B) fs = (runOnModule A fs).bind (fun out => runOnModule B out) := by
  induction A generalizing fs with
  | nil => simp [runOnModule]
  | cons F rest ih =>
    simp only [List.cons_append, runOnModule]
    cases hF : visitor F fs with
    | none => simp
    | some p => obtain ⟨m1, out1⟩ := p; simp [ih]

theorem visitInstruction_extends (I : Instruction) (m m1 : TaintMap) (fs fs1 : List taintInfo)
    (h : visitInstruction I m fs = some (m1, fs1)) :
    fs <+: fs1 ∧ fs1.length ≤ fs.length + 1 := by
  cases I with
  | Store op0 op1 =>
    cases hs : taintStore op0 op1 m with
    | none => simp [visitInstruction, hs] at h
    | some m2 =>
      simp only [visitInstruction, hs, Option.map_some', Option.some.injEq, Prod.mk.injEq] at h
      rw [← h.2]
      exact ⟨List.prefix_refl _, Nat.le_succ _⟩
  | Load op0 name =>
    cases hs : taintLoad op0 name m with
    | none => simp [visitInstruction, hs] at h
    | some m2 =>
      simp only [visitInstruction, hs, Option.map_some', Option.some.injEq, Prod.mk.injEq] at h
      rw [← h.2]
      exact ⟨List.prefix_refl _, Nat.le_succ _⟩
  | Call fn args line =>
    cases fn with
    | none => simp [visitInstruction, taintCall] at h
    | some f =>
      simp only [visitInstruction, taintCall] at h
      split at h
      · split at h
        · simp only [Option.some.injEq, Prod.mk.injEq] at h
          rw [← h.2]
          exact ⟨List.prefix_append _ _, by simp⟩
        · simp only [Option.some.injEq, Prod.mk.injEq] at h
          rw [← h.2]
          exact ⟨List.prefix_refl _, Nat.le_succ _⟩
      · split at h <;>
        · simp only [Option.some.injEq, Prod.mk.injEq] at h
          rw [← h.2]
          exact ⟨List.prefix_refl _, Nat.le_succ _⟩
  | Other =>
    simp only [visitInstruction, Option.some.injEq, Prod.mk.injEq] at h
    rw [← h.2]
    exact ⟨List.prefix_refl _, Nat.le_succ _⟩

theorem visitBlock_callsOn (f x : String) (lines : List Nat) (m : TaintMap)
    (fs : List taintInfo) (hf : f ∈ sinkFn) (hx : TaintMap.find m x = some true)
    (hxne : x ≠ "") :
    visitBlock (callsOn f x lines) m fs
      = some (m, fs ++ lines.map (fun l => taintInfo.mk l f)) := by
  induction lines generalizing fs with
  | nil => simp [callsOn, visitBlock]
  | cons l rest ih =>
    have hcall := (sink_call_step m fs f [x] l hf).1 ⟨x, by simp, hx, hxne⟩
    have hrest := ih (fs ++ [taintInfo.mk l f])
    simp only [callsOn] at hrest
    simp only [callsOn, List.map_cons, visitBlock, visitInstruction, hcall, hrest]
    simp

/-! ## Entries persist -/

theorem find_insert_of_some (m : TaintMap) (key k : String) (v b : Bool)
    (h : TaintMap.find m k = some b) : TaintMap.find (TaintMap.insert m key v) k = some b := by
  by_cases hk : k = key
  · subst hk
    rw [TaintMap.insert_of_find_some m k v b h]
    exact h
  · rw [TaintMap.find_insert_ne m key k v hk]
    exact h

theorem taintStore_cases (op1 op2 : String) (m m1 : TaintMap)
    (h : taintStore op1 op2 m = some m1) :
    (op2 = "" ∧ m1 = m) ∨ (op2 ≠ "" ∧ ∃ v, m1 = TaintMap.insert m op2 v) := by
  unfold taintStore at h
  cases hf : TaintMap.find m op1 with
  | none => simp [hf] at h
  | some flag =>
    simp only [hf] at h
    by_cases h2 : op2 = ""
    · left
      simp only [h2, ne_eq, not_true_eq_false, and_false, if_false, Option.some.injEq] at h
      exact ⟨h2, h.symm⟩
    · right
      refine ⟨h2, ?_⟩
      cases flag with
      | true =>
        simp only [ne_eq, h2, not_false_eq_true, and_self, if_true, Option.some.injEq] at h
        exact ⟨true, h.symm⟩
      | false =>
        simp [h2] at h
        exact ⟨false, h.symm⟩

theorem taintCall_map (fn : Option String) (args : List String) (line : Nat)
    (m m1 : TaintMap) (fs fs1 : List taintInfo)
    (h : taintCall fn args line m fs = some (m1, fs1)) : m1 = m := by
  cases fn with
  | none => simp [taintCall] at h
  | some f =>
    simp only [taintCall] at h
    split at h
    · split at h <;>
      · simp only [Option.some.injEq, Prod.mk.injEq] at h
        exact h.1.symm
    · split at h <;>
      · simp only [Option.some.injEq, Prod.mk.injEq] at h
        exact h.1.symm

theorem visitInstruction_map_cases (I : Instruction) (m m1 : TaintMap)
    (fs fs1 : List taintInfo) (h : visitInstruction I m fs = some (m1, fs1)) :
    m1 = m ∨ ∃ key v, key ≠ "" ∧ m1 = TaintMap.insert m key v := by
  cases I with
  | Store op0 op1 =>
    cases hs : taintStore op0 op1 m with
    | none => simp [visitInstruction, hs] at h
    | some m2 =>
      simp only [visitInstruction, hs, Option.map_some', Option.some.injEq, Prod.mk.injEq] at h
      rw [← h.1]
      rcases taintStore_cases op0 op1 m m2 hs with ⟨_, hm⟩ | ⟨hne, v, hm⟩
      · exact Or.inl hm
      · exact Or.inr ⟨op1, v, hne, hm⟩
  | Load op0 name =>
    cases hs : taintLoad op0 name m with
    | none => simp [visitInstruction, hs] at h
    | some m2 =>
      simp only [visitInstruction, hs, Option.map_some', Option.some.injEq, Prod.mk.injEq] at h
      rw [← h.1]
      rw [taintLoad_eq_taintStore] at hs
      rcases taintStore_cases op0 name m m2 hs with ⟨_, hm⟩ | ⟨hne, v, hm⟩
      · exact Or.inl hm
      · exact Or.inr ⟨name, v, hne, hm⟩
  | Call fn args line => exact Or.inl (taintCall_map fn args line m m1 fs fs1 h)
  | Other =>
    simp only [visitInstruction, Option.some.injEq, Prod.mk.injEq] at h
    exact Or.inl h.1.symm

theorem visitInstruction_keeps_entry (I : Instruction) (m m1 : TaintMap)
    (fs fs1 : List taintInfo) (k : String) (b : Bool)
    (h : visitInstruction I m fs = some (m1, fs1)) (hk : TaintMap.find m k = some b) :
    TaintMap.find m1 k = some b := by
  rcases visitInstruction_map_cases I m m1 fs fs1 h with hm | ⟨key, v, _, hm⟩
  · rw [hm]; exact hk
  · rw [hm]; exact find_insert_of_some m key k v b hk

theorem visitBlock_keeps_entry (B : List Instruction) (m m1 : TaintMap)
    (fs fs1 : List taintInfo) (k : String) (b : Bool)
    (h : visitBlock B m fs = some (m1, fs1)) (hk : TaintMap.find m k = some b) :
    TaintMap.find m1 k = some b := by
  induction B generalizing m fs with
  | nil =>
    simp only [visitBlock, Option.some.injEq, Prod.mk.injEq] at h
    rw [← h.1]; exact hk
  | cons I rest ih =>
    simp only [visitBlock] at h
    cases hI : visitInstruction I m fs with
    | none => simp [hI] at h
    | some p =>
      obtain ⟨m2, fs2⟩ := p
      simp only [hI] at h
      exact ih m2 fs2 h (visitInstruction_keeps_entry I m m2 fs fs2 k b hI hk)

theorem visitInstruction_no_empty_key (I : Instruction) (m m1 : TaintMap)
    (fs fs1 : List taintInfo) (h : visitInstruction I m fs = some (m1, fs1))
    (hk : TaintMap.find m "" = none) : TaintMap.find m1 "" = none := by
  rcases visitInstruction_map_cases I m m1 fs fs1 h with hm | ⟨key, v, hne, hm⟩
  · rw [hm]; exact hk
  · rw [hm, TaintMap.find_insert_ne m key "" v (fun hc => hne hc.symm)]; exact hk

theorem visitBlock_no_empty_key (B : List Instruction) (m m1 : TaintMap)
    (fs fs1 : List taintInfo) (h : visitBlock B m fs = some (m1, fs1))
    (hk : TaintMap.find m "" = none) : TaintMap.find m1 "" = none := by
  induction B generalizing m fs with
  | nil =>
    simp only [visitBlock, Option.some.injEq, Prod.mk.injEq] at h
    rw [← h.1]; exact hk
  | cons I rest ih =>
    simp only [visitBlock] at h
    cases hI : visitInstruction I m fs with
    | none => simp [hI] at h
    | some p =>
      obtain ⟨m2, fs2⟩ := p
      simp only [hI] at h
      exact ih m2 fs2 h (visitInstruction_no_empty_key I m m2 fs fs2 hI hk)

theorem seedArgs_no_empty_key (params : List String) :
    TaintMap.find (seedArgs params []) "" = none := by
  rw [find_seedArgs_of_none params [] "" (by simp [TaintMap.find])]
  simp

theorem taintStore_empty_dest (s : String) (m : TaintMap) (b : Bool)
    (hs : TaintMap.find m s = some b) : taintStore s "" m = some m := by
  simp [taintStore, hs]

/-! ## The key order and ascending maps -/

namespace TaintMap

theorem char_eq_of_toNat_eq (a b : Char) (h : a.toNat = b.toNat) : a = b := by
  rw [← Char.ofNat_toNat a, h, Char.ofNat_toNat]

theorem ltChars_trans (a b c : List Char) (hab : ltChars a b = true)
    (hbc : ltChars b c = true) : ltChars a c = true := by
  induction a generalizing b c with
  | nil =>
    cases b with
    | nil => simp [ltChars] at hab
    | cons y ys =>
      cases c with
      | nil => simp [ltChars] at hbc
      | cons z zs => simp [ltChars]
  | cons x xs ih =>
    cases b with
    | nil => simp [ltChars] at hab
    | cons y ys =>
      cases c with
      | nil => simp [ltChars] at hbc
      | cons z zs =>
        simp only [ltChars] at hab hbc ⊢
        split_ifs at hab hbc ⊢ <;> first
          | rfl
          | omega
          | exact ih ys zs hab hbc

theorem ltChars_of_not_lt_of_ne (a b : List Char) (hab : ltChars a b = false)
    (hne : a ≠ b) : ltChars b a = true := by
  induction a generalizing b with
  | nil =>
    cases b with
    | nil => exact absurd rfl hne
    | cons y ys => simp [ltChars] at hab
  | cons x xs ih =>
    cases b with
    | nil => simp [ltChars]
    | cons y ys =>
      simp only [ltChars] at hab ⊢
      split_ifs at hab ⊢ with h1 h2 h3
      · rfl
      · have hxy : x = y := char_eq_of_toNat_eq x y (by omega)
        subst hxy
        exact ih ys hab (fun hc => hne (by rw [hc]))

theorem nameLt_trans (a b c : String) (hab : nameLt a b = true) (hbc : nameLt b c = true) :
    nameLt a c = true :=
  ltChars_trans a.data b.data c.data hab hbc

theorem nameLt_of_not_lt_of_ne (a b : String) (hab : ¬ nameLt a b = true) (hne : a ≠ b) :
    nameLt b a = true :=
  ltChars_of_not_lt_of_ne a.data b.data (by simpa [nameLt] using hab)
    (fun hc => hne (String.ext hc))

end TaintMap

theorem ascending_orderedInsert (m : TaintMap) (key : String) (v : Bool) (h : Ascending m)
    (hkey : TaintMap.find m key = none) : Ascending (TaintMap.orderedInsert m key v) := by
  induction m with
  | nil => simp [TaintMap.orderedInsert, Ascending]
  | cons hd rest ih =>
    obtain ⟨k, b⟩ := hd
    have hk : key ≠ k := by
      intro hc
      simp [TaintMap.find, hc] at hkey
    have hrest : TaintMap.find rest key = none := by simpa [TaintMap.find, hk] using hkey
    obtain ⟨hhead, htail⟩ := List.pairwise_cons.mp h
    by_cases hlt : TaintMap.nameLt key k = true
    · simp only [TaintMap.orderedInsert, hlt, if_true]
      refine List.pairwise_cons.mpr ⟨?_, h⟩
      intro e he
      rcases List.mem_cons.mp he with he | he
      · rw [he]; exact hlt
      · exact TaintMap.nameLt_trans key k e.1 hlt (hhead e he)
    · simp only [TaintMap.orderedInsert, hlt, if_false]
      refine List.pairwise_cons.mpr ⟨?_, ih htail hrest⟩
      intro e he
      rcases (TaintMap.mem_orderedInsert rest key v e).mp he with he | he
      · rw [he]; exact TaintMap.nameLt_of_not_lt_of_ne key k hlt hk
      · exact hhead e he

theorem ascending_insert (m : TaintMap) (key : String) (v : Bool) (h : Ascending m) :
    Ascending (TaintMap.insert m key v) := by
  cases hf : TaintMap.find m key with
  | some b => rw [TaintMap.insert_of_find_some m key v b hf]; exact h
  | none =>
    rw [TaintMap.insert_of_find_none m key v hf]
    exact ascending_orderedInsert m key v h hf

theorem ascending_seedArgs (params : List String) (m : TaintMap) (h : Ascending m) :
    Ascending (seedArgs params m) := by
  induction params generalizing m with
  | nil => simpa [seedArgs] using h
  | cons p rest ih =>
    by_cases hp : p = ""
    · simpa [seedArgs, hp] using ih m h
    · simpa [seedArgs, hp] using ih _ (ascending_insert m p true h)

theorem ascending_visitBlock (B : List Instruction) (m m1 : TaintMap)
    (fs fs1 : List taintInfo) (h : visitBlock B m fs = some (m1, fs1)) (hm : Ascending m) :
    Ascending m1 := by
  induction B generalizing m fs with
  | nil =>
    simp only [visitBlock, Option.some.injEq, Prod.mk.injEq] at h
    rw [← h.1]; exact hm
  | cons I rest ih =>
    simp only [visitBlock] at h
    cases hI : visitInstruction I m fs with
    | none => simp [hI] at h
    | some p =>
      obtain ⟨m2, fs2⟩ := p
      simp only [hI] at h
      refine ih m2 fs2 h ?_
      rcases visitInstruction_map_cases I m m2 fs fs2 hI with hm2 | ⟨key, v, _, hm2⟩
      · rw [hm2]; exact hm
      · rw [hm2]; exact ascending_insert m key v hm

theorem ascending_visitor (F : Function) (fs fs1 : List taintInfo) (m : TaintMap)
    (h : visitor F fs = some (m, fs1)) : Ascending m := by
  simp only [visitor, visitBlocks_eq_join] at h
  exact ascending_visitBlock _ _ m fs fs1 h
    (ascending_seedArgs F.args [] (by simp [Ascending]))

/-! ## Where findings come from -/

theorem sinkFinding_eq_some (I : Instruction) (t : taintInfo) (h : sinkFinding I = some t) :
    t.fnName ∈ sinkFn ∧ ∃ args, I = Instruction.Call (some t.fnName) args t.line := by
  cases I with
  | Store op0 op1 => simp [sinkFinding] at h
  | Load op0 name => simp [sinkFinding] at h
  | Other => simp [sinkFinding] at h
  | Call fn args line =>
    cases fn with
    | none => simp [sinkFinding] at h
    | some f =>
      by_cases hf : f ∈ sinkFn
      · simp only [sinkFinding, hf, if_true, Option.some.injEq] at h
        rw [← h]
        exact ⟨hf, args, rfl⟩
      · simp [sinkFinding, hf] at h

theorem filterMap_cons_toList (I : Instruction) (B : List Instruction) :
    (I :: B).filterMap sinkFinding = (sinkFinding I).toList ++ B.filterMap sinkFinding := by
  cases h : sinkFinding I <;> simp [List.filterMap_cons, h]

theorem visitInstruction_out (I : Instruction) (m m1 : TaintMap) (fs fs1 : List taintInfo)
    (h : visitInstruction I m fs = some (m1, fs1)) :
    ∃ out, fs1 = fs ++ out ∧ List.Sublist out (sinkFinding I).toList := by
  cases I with
  | Store op0 op1 =>
    cases hs : taintStore op0 op1 m with
    | none => simp [visitInstruction, hs] at h
    | some m2 =>
      simp only [visitInstruction, hs, Option.map_some', Option.some.injEq, Prod.mk.injEq] at h
      exact ⟨[], by simp [h.2], by simp⟩
  | Load op0 name =>
    cases hs : taintLoad op0 name m with
    | none => simp [visitInstruction, hs] at h
    | some m2 =>
      simp only [visitInstruction, hs, Option.map_some', Option.some.injEq, Prod.mk.injEq] at h
      exact ⟨[], by simp [h.2], by simp⟩
  | Other =>
    simp only [visitInstruction, Option.some.injEq, Prod.mk.injEq] at h
    exact ⟨[], by simp [h.2], by simp⟩
  | Call fn args line =>
    cases fn with
    | none => simp [visitInstruction, taintCall] at h
    | some f =>
      simp only [visitInstruction, taintCall] at h
      by_cases hf : f ∈ sinkFn
      · simp only [hf, if_true] at h
        by_cases ht : isTaintedArg args m = true
        · simp only [ht, if_true, Option.some.injEq, Prod.mk.injEq] at h
          exact ⟨[taintInfo.mk line f], h.2.symm, by simp [sinkFinding, hf]⟩
        · simp only [ht, Bool.false_eq_true, if_false, Option.some.injEq, Prod.mk.injEq] at h
          exact ⟨[], by simp [h.2], by simp⟩
      · simp only [hf, if_false] at h
        split at h <;>
        · simp only [Option.some.injEq, Prod.mk.injEq] at h
          exact ⟨[], by simp [h.2], by simp⟩

theorem visitBlock_out (B : List Instruction) (m m1 : TaintMap) (fs fs1 : List taintInfo)
    (h : visitBlock B m fs = some (m1, fs1)) :
    ∃ out, fs1 = fs ++ out ∧ List.Sublist out (B.filterMap sinkFinding) := by
  induction B generalizing m fs with
  | nil =>
    simp only [visitBlock, Option.some.injEq, Prod.mk.injEq] at h
    exact ⟨[], by simp [h.2], by simp⟩
  | cons I rest ih =>
    simp only [visitBlock] at h
    cases hI : visitInstruction I m fs with
    | none => simp [hI] at h
    | some p =>
      obtain ⟨m2, fs2⟩ := p
      simp only [hI] at h
      obtain ⟨out1, h1, hsub1⟩ := visitInstruction_out I m m2 fs fs2 hI
      obtain ⟨out2, h2, hsub2⟩ := ih m2 fs2 h
      refine ⟨out1 ++ out2, by rw [h2, h1, List.append_assoc], ?_⟩
      rw [filterMap_cons_toList]
      exact List.Sublist.append hsub1 hsub2

theorem runOnModule_out (M : List Function) (fs fs1 : List taintInfo)
    (h : runOnModule M fs = some fs1) :
    ∃ out, fs1 = fs ++ out ∧ List.Sublist out ((moduleInstrs M).filterMap sinkFinding) := by
  induction M generalizing fs with
  | nil =>
    simp only [runOnModule, Option.some.injEq] at h
    exact ⟨[], by simp [h], by simp⟩
  | cons F rest ih =>
    simp only [runOnModule] at h
    cases hF : visitor F fs with
    | none => simp [hF] at h
    | some p =>
      obtain ⟨m2, fs2⟩ := p
      simp only [hF] at h
      simp only [visitor, visitBlocks_eq_join] at hF
      obtain ⟨out1, h1, hsub1⟩ := visitBlock_out _ _ m2 fs fs2 hF
      obtain ⟨out2, h2, hsub2⟩ := ih fs2 h
      refine ⟨out1 ++ out2, by rw [h2, h1, List.append_assoc], ?_⟩
      simp only [moduleInstrs, List.map_cons, List.flatten_cons, List.filterMap_append]
      exact List.Sublist.append hsub1 hsub2

theorem mem_moduleInstrs (M : List Function) (I : Instruction) (h : I ∈ moduleInstrs M) :
    ∃ F ∈ M, ∃ B ∈ F.blocks, I ∈ B := by
  simp only [moduleInstrs, List.mem_flatten, List.mem_map] at h
  obtain ⟨l, ⟨F, hF, hl⟩, hI⟩ := h
  rw [← hl] at hI
  obtain ⟨B, hB, hIB⟩ := List.mem_flatten.mp hI
  exact ⟨F, hF, B, hB, hIB⟩

/-! ## The emitted text -/

theorem runOnModuleErrs_findings (M : List Function) (fs : List taintInfo) :
    (runOnModuleErrs M fs).map Prod.snd = runOnModule M fs := by
  induction M generalizing fs with
  | nil => simp [runOnModuleErrs, runOnModule]
  | cons F rest ih =>
    simp only [runOnModuleErrs, runOnModule]
    cases hF : visitor F fs with
    | none => simp
    | some p =>
      obtain ⟨m2, fs2⟩ := p
      simp only []
      rw [← ih fs2]
      cases runOnModuleErrs rest fs2 with
      | none => simp
      | some q => simp

theorem runOnModuleErrs_shape (M : List Function) (fs fs1 : List taintInfo)
    (out : List String) (h : runOnModuleErrs M fs = some (out, fs1)) :
    ∃ maps : List TaintMap,
      List.Forall₂ (fun F m => (visitor F []).map Prod.fst = some m ∧ Ascending m) M maps ∧
      out = (maps.map printMap).flatten ++ printAnalysis fs1 := by
  induction M generalizing fs out with
  | nil =>
    simp only [runOnModuleErrs, Option.some.injEq, Prod.mk.injEq] at h
    exact ⟨[], List.Forall₂.nil, by simp [← h.1, ← h.2]⟩
  | cons F rest ih =>
    simp only [runOnModuleErrs] at h
    cases hF : visitor F fs with
    | none => simp [hF] at h
    | some p =>
      obtain ⟨m2, fs2⟩ := p
      simp only [hF] at h
      cases hR : runOnModuleErrs rest fs2 with
      | none => simp [hR] at h
      | some q =>
        obtain ⟨out2, fs3⟩ := q
        simp only [hR, Option.some.injEq, Prod.mk.injEq] at h
        obtain ⟨maps, hall, hout⟩ := ih fs2 out2 (by rw [hR, h.2])
        have hmap : (visitor F []).map Prod.fst = some m2 := by
          have hv := visitor_findings F fs
          rw [hF] at hv
          cases hv0 : visitor F [] with
          | none => simp [hv0] at hv
          | some r =>
            simp only [hv0, Option.map_some', Option.some.injEq, Prod.mk.injEq] at hv
            simp [hv.1]
        refine ⟨m2 :: maps, List.Forall₂.cons ⟨hmap, ascending_visitor F fs fs2 m2 hF⟩ hall, ?_⟩
        rw [← h.1, hout]
        simp

/-! ## C1: sanitizer calls -/

/-- C1 (sanitizer-call law), evaluated on the code.  In `g(x)` with
`strlen(x)` at line 7 followed by `memcpy(x)` at line 9, the sanitizer call
clears `x` only in the by-value copy held by `sanitizeArg`; the map of `visitor`
still has `x` tainted after the call, and the sink call at line 9 is
recorded. -/
theorem sanitizer_call_does_not_persist :
    sanitizeArg ["x"] [("x", true)] = [("x", false)] ∧
    taintCall (some "strlen") ["x"] 7 [("x", true)] [] = some ([("x", true)], []) ∧
    visitor ⟨["x"], [[.Call (some "strlen") ["x"] 7, .Call (some "memcpy") ["x"] 9]]⟩ []
      = some ([("x", true)], [taintInfo.mk 9 "memcpy"]) := by
  decide

/-! ## C2: copy-taint -/

/-- C2 as stated fails: with `d` already mapped to `false` and `s` mapped to
`true`, a store or load from `s` to `d` leaves `d` mapped to `false`
(`std::map::insert` keeps the existing entry). -/
theorem copy_taint_no_overwrite :
    TaintMap.find [("d", false), ("s", true)] "s" = some true ∧
    taintStore "s" "d" [("d", false), ("s", true)] = some [("d", false), ("s", true)] ∧
    taintLoad "s" "d" [("d", false), ("s", true)] = some [("d", false), ("s", true)] ∧
    TaintMap.find [("d", false), ("s", true)] "d" = some false := by
  decide

/-- C2 amended (first write wins).  For a store or load whose source `s` has
the flag `b` and whose destination `d` is named, the step succeeds; if `d` had
no entry, `d` now has the flag `b`; if `d` had an entry, the map is unchanged;
every other name keeps its entry or absence. -/
theorem copy_taint_first_write (m : TaintMap) (s d : String) (b : Bool)
    (hs : TaintMap.find m s = some b) (hd : d ≠ "") :
    ∃ m1, taintStore s d m = some m1 ∧ taintLoad s d m = some m1 ∧
      (TaintMap.find m d = none → TaintMap.find m1 d = some b) ∧
      (∀ b0, TaintMap.find m d = some b0 → m1 = m) ∧
      (∀ other, other ≠ d → TaintMap.find m1 other = TaintMap.find m other) := by
  refine ⟨TaintMap.insert m d b, taintStore_of_find m s d b hs hd, ?_, ?_, ?_, ?_⟩
  · rw [taintLoad_eq_taintStore]
    exact taintStore_of_find m s d b hs hd
  · intro hnone
    exact TaintMap.find_insert_self_of_none m d b hnone
  · intro b0 hsome
    exact TaintMap.insert_of_find_some m d b b0 hsome
  · intro other hother
    exact TaintMap.find_insert_ne m d other b hother

/-- Witness for `copy_taint_first_write`: a load of the tainted `x` into the
fresh name `y`. -/
theorem copy_taint_first_write_witness :
    ∃ m1, taintStore "x" "y" [("x", true)] = some m1 ∧
      taintLoad "x" "y" [("x", true)] = some m1 ∧
      (TaintMap.find [("x", true)] "y" = none → TaintMap.find m1 "y" = some true) ∧
      (∀ b0, TaintMap.find [("x", true)] "y" = some b0 → m1 = [("x", true)]) ∧
      (∀ other, other ≠ "y" → TaintMap.find m1 other = TaintMap.find [("x", true)] other) :=
  copy_taint_first_write [("x", true)] "x" "y" true (by decide) (by decide)

/-! ## C3: sink calls -/

/-- C3 (sink-call law).  For a call whose resolved callee `f` is in `sinkFn`:
if some named argument is mapped to `true`, `taintCall` appends exactly the one
finding `(f, line)`; otherwise it appends nothing.  The call never fails. -/
theorem sink_call_law (m : TaintMap) (fs : List taintInfo) (f : String) (args : List String)
    (line : Nat) (hf : f ∈ sinkFn) :
    ((∃ a ∈ args, TaintMap.find m a = some true ∧ a ≠ "") →
        taintCall (some f) args line m fs = some (m, fs ++ [taintInfo.mk line f])) ∧
    ((¬ ∃ a ∈ args, TaintMap.find m a = some true ∧ a ≠ "") →
        taintCall (some f) args line m fs = some (m, fs)) :=
  sink_call_step m fs f args line hf

/-- Witness for `sink_call_law`: `memcpy(dst, y)` at line 10 with `y` tainted
and `dst` absent is recorded; `strcpy(dst, "")` at line 4 is not. -/
theorem sink_call_law_witness :
    taintCall (some "memcpy") ["dst", "y"] 10 [("y", true)] []
      = some ([("y", true)], [] ++ [taintInfo.mk 10 "memcpy"]) ∧
    taintCall (some "strcpy") ["dst", ""] 4 [("y", true)] [] = some ([("y", true)], []) :=
  ⟨(sink_call_law [("y", true)] [] "memcpy" ["dst", "y"] 10 (by decide)).1
      ⟨"y", by decide, by decide, by decide⟩,
   (sink_call_law [("y", true)] [] "strcpy" ["dst", ""] 4 (by decide)).2 (by decide)⟩

/-! ## C4: parameter-to-sink flow -/

/-- C4 (parameter-to-sink flow).  In a function with a named parameter `x`
whose body is a chain of `n >= 1` stores/loads `x -> v1 -> ... -> vn` (every
`vi` named, pairwise distinct, none a parameter name) followed by a call of
the sink `f` on `vn` at line `L`, `visitor` started on an empty `taintFn`
ends with exactly `[(f, L)]`. -/
theorem param_to_sink_flow (params : List String) (x : String) (steps : List (Bool × String))
    (f : String) (L : Nat) (blocks : List (List Instruction))
    (hx : x ∈ params) (hxne : x ≠ "") (hn : 1 ≤ steps.length)
    (hne : ∀ s ∈ steps, s.2 ≠ "") (hdist : (steps.map Prod.snd).Nodup)
    (hpar : ∀ s ∈ steps, s.2 ∉ params) (hf : f ∈ sinkFn)
    (hbody : blocks.flatten
      = copyChain x steps ++ [Instruction.Call (some f) [chainEnd x steps] L]) :
    ∃ m, visitor { args := params, blocks := blocks } []
      = some (m, [taintInfo.mk L f]) := by
  have _ := hn
  have _ := hdist
  have _ := hpar
  have hseed : TaintMap.find (seedArgs params []) x = some true := by
    rw [find_seedArgs_of_none params [] x (by simp [TaintMap.find])]
    simp [hx, hxne]
  obtain ⟨m1, hrun, _, hend⟩ := visitBlock_copyChain x steps (seedArgs params []) []
    (allTrue_seedArgs params [] allTrue_nil) hseed hne
  have hvn : chainEnd x steps ≠ "" := chainEnd_ne_empty x steps hxne hne
  have hcall := (sink_call_step m1 [] f [chainEnd x steps] L hf).1
    ⟨chainEnd x steps, by simp, hend, hvn⟩
  refine ⟨m1, ?_⟩
  have hlast : visitBlock [Instruction.Call (some f) [chainEnd x steps] L] m1 []
      = some (m1, [taintInfo.mk L f]) := by
    rw [visitBlock_singleton]
    simpa [visitInstruction] using hcall
  simp only [visitor, visitBlocks_eq_join, hbody, visitBlock_append, hrun]
  exact hlast

/-- Witness for `param_to_sink_flow` (scenario A): `f(x)` with `y = load x`
and `memcpy(y)` at line 10. -/
theorem param_to_sink_flow_witness :
    ∃ m, visitor { args := ["x"],
                   blocks := [[Instruction.Load "x" "y", Instruction.Call (some "memcpy") ["y"] 10]] } []
      = some (m, [taintInfo.mk 10 "memcpy"]) :=
  param_to_sink_flow ["x"] "x" [(false, "y")] "memcpy" 10
    [[Instruction.Load "x" "y", Instruction.Call (some "memcpy") ["y"] 10]]
    (by decide) (by decide) (by decide) (by decide) (by decide) (by decide) (by decide)
    (by decide)

/-! ## C5: parameter seeding -/

/-- C5 (parameter seeding).  Right after the seeding loop of `visitor` the
keys of the map are exactly the named parameters, every entry is `true`, and
looking up a named parameter yields `true`; unnamed parameters add nothing. -/
theorem seed_parameters (params : List String) :
    (∀ k, k ∈ TaintMap.keys (seedArgs params []) ↔ (k ∈ params ∧ k ≠ "")) ∧
    (∀ k b, (k, b) ∈ seedArgs params [] → b = true) ∧
    (∀ k, TaintMap.find (seedArgs params []) k
        = if k ∈ params ∧ k ≠ "" then some true else none) := by
  have hfind : ∀ k, TaintMap.find (seedArgs params []) k
      = if k ∈ params ∧ k ≠ "" then some true else none :=
    fun k => find_seedArgs_of_none params [] k (by simp [TaintMap.find])
  refine ⟨?_, ?_, hfind⟩
  · intro k
    by_cases hk : k ∈ params ∧ k ≠ ""
    · refine ⟨fun _ => hk, fun _ => ?_⟩
      by_contra hc
      have hnone := (TaintMap.find_eq_none_iff (seedArgs params []) k).mpr hc
      rw [hfind k] at hnone
      simp [hk] at hnone
    · refine ⟨fun hmem => ?_, fun h => absurd h hk⟩
      have hnone : TaintMap.find (seedArgs params []) k = none := by
        rw [hfind k]
        simp [hk]
      exact absurd hmem ((TaintMap.find_eq_none_iff (seedArgs params []) k).mp hnone)
  · intro k b hmem
    exact allTrue_seedArgs params [] allTrue_nil (k, b) hmem

/-! ## C6: unresolved callee -/

/-- C6 (unresolved callee), evaluated on the code.  `taintCall` calls
`fn->getName()` on the result of `getCalledFunction()` without a null check,
so a call with no resolved callee fails in every state, and so does the
analysis of a function that contains one. -/
theorem unresolved_callee_fails :
    (∀ (args : List String) (line : Nat) (m : TaintMap) (fs : List taintInfo),
      taintCall none args line m fs = none) ∧
    visitor { args := ["fp", "x"], blocks := [[Instruction.Call none ["x"] 3]] } [] = none :=
  ⟨fun _ _ _ _ => rfl, by decide⟩

/-! ## C7: untracked source -/

/-- C7 (default-false read), evaluated on the code.  `taintStore` and
`taintLoad` read `taintMap.find(op1)->second` without comparing against
`end()`: with an unnamed source and an empty map the step fails, and so does
`k()` with `store const, y` followed by `memcpy(y)` at line 4. -/
theorem untracked_source_fails :
    TaintMap.find [] "" = none ∧
    taintStore "" "y" [] = none ∧
    taintLoad "" "y" [] = none ∧
    visitor { args := [],
              blocks := [[Instruction.Store "" "y", Instruction.Call (some "memcpy") ["y"] 4]] } []
      = none := by
  decide

/-! ## C8: running the driver again -/

/-- C8 as stated fails: `taintFn` is a global that `runOnModule` never clears.
For the module with the single function `h(x)` calling `memcpy(x)` at line 3,
the first invocation reports one finding and the second invocation, started
from the list the first one left, reports two. -/
theorem rerun_reports_twice :
    runOnModule [{ args := ["x"], blocks := [[Instruction.Call (some "memcpy") ["x"] 3]] }] []
      = some [taintInfo.mk 3 "memcpy"] ∧
    runOnModule [{ args := ["x"], blocks := [[Instruction.Call (some "memcpy") ["x"] 3]] }]
        [taintInfo.mk 3 "memcpy"]
      = some [taintInfo.mk 3 "memcpy", taintInfo.mk 3 "memcpy"] := by
  decide

/-- C8 amended.  If a first invocation of `runOnModule` on a module, started
with an empty `taintFn`, ends with the findings `F`, then an invocation started
with any list `fs` ends with `fs ++ F`: each invocation appends the same
ordered sequence, and the second invocation of a pair reports `F ++ F`. -/
theorem rerun_appends_same_findings (M : List Function) (F : List taintInfo)
    (h : runOnModule M [] = some F) :
    runOnModule M F = some (F ++ F) ∧ ∀ fs, runOnModule M fs = some (fs ++ F) := by
  have hall : ∀ fs, runOnModule M fs = some (fs ++ F) := by
    intro fs
    rw [runOnModule_findings M fs, h]
    rfl
  exact ⟨hall F, hall⟩

/-- Witness for `rerun_appends_same_findings`: the module with the single
function `h(x)` calling `memcpy(x)` at line 3. -/
theorem rerun_appends_same_findings_witness :
    runOnModule [{ args := ["x"], blocks := [[Instruction.Call (some "memcpy") ["x"] 3]] }]
        [taintInfo.mk 3 "memcpy"]
      = some ([taintInfo.mk 3 "memcpy"] ++ [taintInfo.mk 3 "memcpy"]) ∧
    ∀ fs, runOnModule
        [{ args := ["x"], blocks := [[Instruction.Call (some "memcpy") ["x"] 3]] }] fs
      = some (fs ++ [taintInfo.mk 3 "memcpy"]) :=
  rerun_appends_same_findings
    [{ args := ["x"], blocks := [[Instruction.Call (some "memcpy") ["x"] 3]] }]
    [taintInfo.mk 3 "memcpy"] (by decide)

/-! ## C9: findings compose per function -/

/-- C9 (findings compose per function).  If analysing the function list `A`
alone yields `fa` and analysing `B` alone yields `fb` (both from an empty
`taintFn`), analysing `A ++ B` yields `fa ++ fb`; the findings after the
functions of `A` are a prefix of the final findings, whatever follows `A`; and
`visitor` builds its map from the function's own parameters only, so the map
it ends with does not depend on the findings it started with. -/
theorem findings_compose (A B : List Function) (fa fb : List taintInfo)
    (hA : runOnModule A [] = some fa) (hB : runOnModule B [] = some fb) :
    runOnModule (A ++ B) [] = some (fa ++ fb) ∧
    (∀ C out, runOnModule (A ++ C) [] = some out → fa <+: out) ∧
    (∀ F fs, (visitor F fs).map Prod.fst = (visitor F []).map Prod.fst) := by
  refine ⟨?_, ?_, ?_⟩
  · rw [runOnModule_append, hA]
    simp only [Option.some_bind]
    rw [runOnModule_findings B fa, hB]
    rfl
  · intro C out hout
    rw [runOnModule_append, hA] at hout
    simp only [Option.some_bind] at hout
    rw [runOnModule_findings C fa] at hout
    cases hC : runOnModule C [] with
    | none => simp [hC] at hout
    | some fc =>
      simp only [hC, Option.map_some', Option.some.injEq] at hout
      rw [← hout]
      exact List.prefix_append _ _
  · intro F fs
    rw [visitor_findings F fs]
    cases visitor F [] with
    | none => rfl
    | some p => rfl

/-- Witness for `findings_compose`: `f(x)` with `y = load x; memcpy(y)` at line
10, followed by `h(x)` with `strcpy(x)` at line 3. -/
theorem findings_compose_witness :
    runOnModule
      ([{ args := ["x"],
          blocks := [[Instruction.Load "x" "y", Instruction.Call (some "memcpy") ["y"] 10]] }]
        ++ [{ args := ["x"], blocks := [[Instruction.Call (some "strcpy") ["x"] 3]] }]) []
      = some ([taintInfo.mk 10 "memcpy"] ++ [taintInfo.mk 3 "strcpy"]) :=
  (findings_compose
    [{ args := ["x"],
       blocks := [[Instruction.Load "x" "y", Instruction.Call (some "memcpy") ["y"] 10]] }]
    [{ args := ["x"], blocks := [[Instruction.Call (some "strcpy") ["x"] 3]] }]
    [taintInfo.mk 10 "memcpy"] [taintInfo.mk 3 "strcpy"]
    (by decide) (by decide)).1

/-! ## C10: findings are append-only and not deduplicated -/

/-- C10 (append-only, no deduplication).  Processing one instruction leaves
the previous findings as a prefix and adds at most one element; and a function
`h(x)` whose body is only calls of one sink `f` on its named parameter `x`, at
the lines `l1..lk`, yields exactly `[(f, l1), ..., (f, lk)]` in that order,
repeated lines giving repeated entries. -/
theorem findings_append_only :
    (∀ (I : Instruction) (m m1 : TaintMap) (fs fs1 : List taintInfo),
      visitInstruction I m fs = some (m1, fs1) →
        fs <+: fs1 ∧ fs1.length ≤ fs.length + 1) ∧
    (∀ (x f : String) (lines : List Nat) (blocks : List (List Instruction)),
      x ≠ "" → f ∈ sinkFn → blocks.flatten = callsOn f x lines →
        ∃ m, visitor { args := [x], blocks := blocks } []
          = some (m, lines.map (fun l => taintInfo.mk l f))) := by
  refine ⟨visitInstruction_extends, ?_⟩
  intro x f lines blocks hxne hf hbody
  have hseed : TaintMap.find (seedArgs [x] []) x = some true := by
    rw [find_seedArgs_of_none [x] [] x (by simp [TaintMap.find])]
    simp [hxne]
  refine ⟨seedArgs [x] [], ?_⟩
  simp only [visitor, visitBlocks_eq_join, hbody]
  rw [visitBlock_callsOn f x lines (seedArgs [x] []) [] hf hseed hxne]
  simp

/-- Witness for `findings_append_only`: the sink call `memcpy(x)` at line 8
after one earlier finding, and `h(x)` with `memcpy(x)` at lines 3, 8 and 3. -/
theorem findings_append_only_witness :
    ([taintInfo.mk 3 "memcpy"] <+:
        [taintInfo.mk 3 "memcpy", taintInfo.mk 8 "memcpy"] ∧
      [taintInfo.mk 3 "memcpy", taintInfo.mk 8 "memcpy"].length
        ≤ [taintInfo.mk 3 "memcpy"].length + 1) ∧
    ∃ m, visitor { args := ["x"], blocks := [callsOn "memcpy" "x" [3, 8, 3]] } []
      = some (m, [3, 8, 3].map (fun l => taintInfo.mk l "memcpy")) :=
  ⟨findings_append_only.1 (Instruction.Call (some "memcpy") ["x"] 8) [("x", true)]
      [("x", true)] [taintInfo.mk 3 "memcpy"]
      [taintInfo.mk 3 "memcpy", taintInfo.mk 8 "memcpy"] (by decide),
   findings_append_only.2 "x" "memcpy" [3, 8, 3] [callsOn "memcpy" "x" [3, 8, 3]]
      (by decide) (by decide) (by decide)⟩

/-! ## C11: the emitted text -/

/-- C11 as stated fails: `visitor` ends with an unguarded `printMap(taintMap)`,
so with `g_debug` off the run over the single function `h(x)` with `memcpy(x)`
at line 3 writes the map line `x 1` before the header; the text is not just the
header followed by the finding lines. -/
theorem map_lines_emitted_with_debug_off :
    runOnModuleErrs [Function.mk ["x"] [[Instruction.Call (some "memcpy") ["x"] 3]]] []
      = some (["x 1", "WARNING: Tainted arguments passed to these functions:",
               "memcpy at line 3"], [taintInfo.mk 3 "memcpy"]) ∧
    printAnalysis [taintInfo.mk 3 "memcpy"]
      = ["WARNING: Tainted arguments passed to these functions:", "memcpy at line 3"] ∧
    ["x 1", "WARNING: Tainted arguments passed to these functions:", "memcpy at line 3"]
      ≠ printAnalysis [taintInfo.mk 3 "memcpy"] := by
  decide

/-- C11 amended.  When the analysis of a module does not fail, the text written
with `g_debug` off is: for each function in module order, one line
`<name> <0 or 1>` per entry of the function's final taint map, in ascending key
order; then exactly one header line; then one line per entry of `taintFn`, in
recorded order, of the form `<sinkFunctionName> at line <lineNumber>` with the
line in decimal. -/
theorem emitted_text_shape (M : List Function) (fs fs1 : List taintInfo)
    (h : runOnModule M fs = some fs1) :
    ∃ maps : List TaintMap,
      List.Forall₂ (fun F m => (visitor F []).map Prod.fst = some m ∧ Ascending m) M maps ∧
      runOnModuleErrs M fs
        = some ((maps.map printMap).flatten ++ printAnalysis fs1, fs1) ∧
      printAnalysis fs1
        = "WARNING: Tainted arguments passed to these functions:"
            :: fs1.map (fun t => t.fnName ++ " at line " ++ Nat.repr t.line) := by
  have hsnd := runOnModuleErrs_findings M fs
  rw [h] at hsnd
  cases hE : runOnModuleErrs M fs with
  | none => simp [hE] at hsnd
  | some q =>
    obtain ⟨out, fs2⟩ := q
    simp only [hE, Option.map_some', Option.some.injEq] at hsnd
    subst hsnd
    obtain ⟨maps, hall, hout⟩ := runOnModuleErrs_shape M fs fs2 out hE
    exact ⟨maps, hall, by rw [hout], rfl⟩

/-- Witness for `emitted_text_shape`: the module with `f(x, a)` whose body is
`y = load x; memcpy(y)` at line 10. -/
theorem emitted_text_shape_witness :
    ∃ maps : List TaintMap,
      List.Forall₂ (fun F m => (visitor F []).map Prod.fst = some m ∧ Ascending m)
        [Function.mk ["x", "a"]
          [[Instruction.Load "x" "y", Instruction.Call (some "memcpy") ["y"] 10]]] maps ∧
      runOnModuleErrs
          [Function.mk ["x", "a"]
            [[Instruction.Load "x" "y", Instruction.Call (some "memcpy") ["y"] 10]]] []
        = some ((maps.map printMap).flatten ++ printAnalysis [taintInfo.mk 10 "memcpy"],
                [taintInfo.mk 10 "memcpy"]) ∧
      printAnalysis [taintInfo.mk 10 "memcpy"]
        = "WARNING: Tainted arguments passed to these functions:"
            :: [taintInfo.mk 10 "memcpy"].map
                (fun t => t.fnName ++ " at line " ++ Nat.repr t.line) :=
  emitted_text_shape
    [Function.mk ["x", "a"]
      [[Instruction.Load "x" "y", Instruction.Call (some "memcpy") ["y"] 10]]]
    [] [taintInfo.mk 10 "memcpy"] (by decide)

/-! ## C12: a sink call leaves the map alone -/

/-- C12 (sink call frame).  For a call whose callee is in `sinkFn`, `taintCall`
succeeds and the taint map afterwards is the map before, entry for entry,
whether the findings list grew or not. -/
theorem sink_call_keeps_map (m : TaintMap) (fs : List taintInfo) (f : String)
    (args : List String) (line : Nat) (hf : f ∈ sinkFn) :
    ∃ fs1, taintCall (some f) args line m fs = some (m, fs1) ∧
      (fs1 = fs ∨ fs1 = fs ++ [taintInfo.mk line f]) := by
  by_cases ht : isTaintedArg args m = true
  · exact ⟨fs ++ [taintInfo.mk line f], by simp [taintCall, hf, ht], Or.inr rfl⟩
  · exact ⟨fs, by simp [taintCall, hf, ht], Or.inl rfl⟩

/-- Witness for `sink_call_keeps_map`: `strcat(buf, x)` at line 12 with `x`
tainted and `buf` untainted. -/
theorem sink_call_keeps_map_witness :
    ∃ fs1, taintCall (some "strcat") ["buf", "x"] 12 [("buf", false), ("x", true)] []
        = some ([("buf", false), ("x", true)], fs1) ∧
      (fs1 = [] ∨ fs1 = [] ++ [taintInfo.mk 12 "strcat"]) :=
  sink_call_keeps_map [("buf", false), ("x", true)] [] "strcat" ["buf", "x"] 12 (by decide)

/-! ## C13: untracked instructions -/

/-- C13 (untracked instructions are no-ops).  An instruction that is neither a
store, a load nor a call, and a call whose resolved callee is in neither
`sinkFn` nor `sanitizeFn`, leave the taint map and the findings list as they
were. -/
theorem untracked_instruction_noop (m : TaintMap) (fs : List taintInfo) :
    visitInstruction Instruction.Other m fs = some (m, fs) ∧
    ∀ (f : String) (args : List String) (line : Nat), f ∉ sinkFn → f ∉ sanitizeFn →
      visitInstruction (Instruction.Call (some f) args line) m fs = some (m, fs) := by
  refine ⟨rfl, ?_⟩
  intro f args line hsink hsan
  simp [visitInstruction, taintCall, hsink, hsan]

/-- Witness for `untracked_instruction_noop`: `printf(x)` at line 6 with `x`
tainted. -/
theorem untracked_instruction_noop_witness :
    visitInstruction (Instruction.Call (some "printf") ["x"] 6) [("x", true)]
        [taintInfo.mk 3 "memcpy"]
      = some ([("x", true)], [taintInfo.mk 3 "memcpy"]) :=
  (untracked_instruction_noop [("x", true)] [taintInfo.mk 3 "memcpy"]).2 "printf" ["x"] 6
    (by decide) (by decide)

/-! ## C14: the empty name is never a key -/

/-- C14 (no entry for the empty name).  At every point of `visitor`, that is
after seeding and after any initial part of the function's body that has been
processed without failure, the map has no entry for the empty name; and a store
or load whose destination name is empty leaves the map unchanged (it succeeds
whenever its source has an entry). -/
theorem empty_name_never_key :
    (∀ (F : Function) (done rest : List Instruction) (fs fs1 : List taintInfo) (m : TaintMap),
      F.blocks.flatten = done ++ rest →
      visitBlock done (seedArgs F.args []) fs = some (m, fs1) →
        TaintMap.find m "" = none) ∧
    (∀ (s : String) (m m1 : TaintMap),
      (taintStore s "" m = some m1 ∨ taintLoad s "" m = some m1) → m1 = m) ∧
    (∀ (s : String) (m : TaintMap) (b : Bool), TaintMap.find m s = some b →
      taintStore s "" m = some m ∧ taintLoad s "" m = some m) := by
  refine ⟨?_, ?_, ?_⟩
  · intro F done rest fs fs1 m _ hrun
    exact visitBlock_no_empty_key done _ m fs fs1 hrun (seedArgs_no_empty_key F.args)
  · intro s m m1 h
    have hs : taintStore s "" m = some m1 := by
      rcases h with h | h
      · exact h
      · rw [taintLoad_eq_taintStore] at h; exact h
    rcases taintStore_cases s "" m m1 hs with ⟨_, hm⟩ | ⟨hne, _⟩
    · exact hm
    · exact absurd rfl hne
  · intro s m b hs
    exact ⟨taintStore_empty_dest s m b hs, by
      rw [taintLoad_eq_taintStore]; exact taintStore_empty_dest s m b hs⟩

/-- Witness for `empty_name_never_key`: `f(x, <unnamed>)` after its first two
instructions `store x, p` and `<unnamed> = load x`; and the store of `x` into
an unnamed destination. -/
theorem empty_name_never_key_witness :
    TaintMap.find [("p", true), ("x", true)] "" = none ∧
    taintStore "x" "" [("x", true)] = some [("x", true)] ∧
    taintLoad "x" "" [("x", true)] = some [("x", true)] :=
  ⟨empty_name_never_key.1
      (Function.mk ["x", ""]
        [[Instruction.Store "x" "p", Instruction.Load "x" ""],
         [Instruction.Call (some "memcpy") ["p"] 9]])
      [Instruction.Store "x" "p", Instruction.Load "x" ""]
      [Instruction.Call (some "memcpy") ["p"] 9] [] [] [("p", true), ("x", true)]
      (by decide) (by decide),
   empty_name_never_key.2.2 "x" [("x", true)] true (by decide)⟩

/-! ## C15: flags are fixed at first insertion -/

/-- C15 (flags fixed at first insertion).  Once a name has an entry, every
later store, load and call that does not fail leaves the entry present with
the same flag, over one instruction and over any sequence; consequently every
named parameter is mapped to `true` at every later point of the function's
analysis, the end included. -/
theorem flags_fixed_at_first_insertion :
    (∀ (I : Instruction) (m m1 : TaintMap) (fs fs1 : List taintInfo) (k : String) (b : Bool),
      visitInstruction I m fs = some (m1, fs1) → TaintMap.find m k = some b →
        TaintMap.find m1 k = some b) ∧
    (∀ (B : List Instruction) (m m1 : TaintMap) (fs fs1 : List taintInfo) (k : String)
      (b : Bool),
      visitBlock B m fs = some (m1, fs1) → TaintMap.find m k = some b →
        TaintMap.find m1 k = some b) ∧
    (∀ (F : Function) (done rest : List Instruction) (fs fs1 : List taintInfo) (m : TaintMap)
      (p : String),
      F.blocks.flatten = done ++ rest →
      visitBlock done (seedArgs F.args []) fs = some (m, fs1) →
      p ∈ F.args → p ≠ "" → TaintMap.find m p = some true) ∧
    (∀ (F : Function) (fs fs1 : List taintInfo) (m : TaintMap) (p : String),
      visitor F fs = some (m, fs1) → p ∈ F.args → p ≠ "" → TaintMap.find m p = some true) := by
  have hseed : ∀ (params : List String) (p : String), p ∈ params → p ≠ "" →
      TaintMap.find (seedArgs params []) p = some true := by
    intro params p hp hne
    rw [find_seedArgs_of_none params [] p (by simp [TaintMap.find])]
    simp [hp, hne]
  refine ⟨visitInstruction_keeps_entry, visitBlock_keeps_entry, ?_, ?_⟩
  · intro F done rest fs fs1 m p _ hrun hp hne
    exact visitBlock_keeps_entry done _ m fs fs1 p true hrun (hseed F.args p hp hne)
  · intro F fs fs1 m p hrun hp hne
    simp only [visitor, visitBlocks_eq_join] at hrun
    exact visitBlock_keeps_entry _ _ m fs fs1 p true hrun (hseed F.args p hp hne)

/-- Witness for `flags_fixed_at_first_insertion`: in `g(x)` the sanitizer call
`strlen(x)` leaves `x` mapped to `true`, and `x` is still mapped to `true` at
the end of `g(x)` with body `strlen(x)`, `y = load x`, `store y, x`. -/
theorem flags_fixed_at_first_insertion_witness :
    TaintMap.find [("x", true)] "x" = some true ∧
    TaintMap.find [("x", true), ("y", true)] "x" = some true :=
  ⟨flags_fixed_at_first_insertion.1 (Instruction.Call (some "strlen") ["x"] 7) [("x", true)]
      [("x", true)] [] [] "x" true (by decide) (by decide),
   flags_fixed_at_first_insertion.2.2.2
      (Function.mk ["x"]
        [[Instruction.Call (some "strlen") ["x"] 7, Instruction.Load "x" "y",
          Instruction.Store "y" "x"]])
      [] [] [("x", true), ("y", true)] "x" (by decide) (by decide) (by decide)⟩

/-! ## C16: every finding comes from a sink call -/

/-- C16 (findings come from sink calls).  When a module is analysed from an
empty `taintFn` without failure, every recorded finding `(name, line)` has
`name` in `sinkFn` and is `(callee, line)` of a call instruction of the module
whose resolved callee is `name`; the findings are, in order, a selection of
the module's sink calls, so their number is at most the number of call
instructions to sink functions. -/
theorem findings_come_from_sink_calls (M : List Function) (out : List taintInfo)
    (h : runOnModule M [] = some out) :
    (∀ t ∈ out, t.fnName ∈ sinkFn ∧
      ∃ F ∈ M, ∃ B ∈ F.blocks, ∃ args,
        Instruction.Call (some t.fnName) args t.line ∈ B) ∧
    List.Sublist out ((moduleInstrs M).filterMap sinkFinding) ∧
    out.length ≤ countSinkCalls M := by
  obtain ⟨out1, hout, hsub⟩ := runOnModule_out M [] out h
  rw [List.nil_append] at hout
  subst hout
  refine ⟨?_, hsub, ?_⟩
  · intro t ht
    obtain ⟨I, hI, hfind⟩ := List.mem_filterMap.mp (hsub.subset ht)
    obtain ⟨hsink, args, hcall⟩ := sinkFinding_eq_some I t hfind
    obtain ⟨F, hF, B, hB, hIB⟩ := mem_moduleInstrs M I hI
    exact ⟨hsink, F, hF, B, hB, args, by rw [← hcall]; exact hIB⟩
  · have hlen := hsub.length_le
    rw [List.length_filterMap_eq_countP] at hlen
    exact hlen

/-- Witness for `findings_come_from_sink_calls`: `h(x)` with `memcpy(x)` at
line 3 and `strcpy(q)` at line 5 (`q` untracked), followed by `k()` with
`printf()` at line 8; one finding, two sink calls. -/
theorem findings_come_from_sink_calls_witness :
    (∀ t ∈ [taintInfo.mk 3 "memcpy"], t.fnName ∈ sinkFn ∧
      ∃ F ∈ [Function.mk ["x"]
                [[Instruction.Call (some "memcpy") ["x"] 3],
                 [Instruction.Call (some "strcpy") ["q"] 5]],
              Function.mk [] [[Instruction.Call (some "printf") [] 8]]],
        ∃ B ∈ F.blocks, ∃ args, Instruction.Call (some t.fnName) args t.line ∈ B) ∧
    List.Sublist [taintInfo.mk 3 "memcpy"]
      ((moduleInstrs
        [Function.mk ["x"]
            [[Instruction.Call (some "memcpy") ["x"] 3],
             [Instruction.Call (some "strcpy") ["q"] 5]],
          Function.mk [] [[Instruction.Call (some "printf") [] 8]]]).filterMap sinkFinding) ∧
    [taintInfo.mk 3 "memcpy"].length
      ≤ countSinkCalls
        [Function.mk ["x"]
            [[Instruction.Call (some "memcpy") ["x"] 3],
             [Instruction.Call (some "strcpy") ["q"] 5]],
          Function.mk [] [[Instruction.Call (some "printf") [] 8]]] :=
  findings_come_from_sink_calls
    [Function.mk ["x"]
        [[Instruction.Call (some "memcpy") ["x"] 3],
         [Instruction.Call (some "strcpy") ["q"] 5]],
      Function.mk [] [[Instruction.Call (some "printf") [] 8]]]
    [taintInfo.mk 3 "memcpy"] (by decide)

end TaintAnalysis
